import Mathlib

/-!
Verification of the neuralODE-UQ core (src/main-ktallam.ipynb) against its
specification.  The source's numeric code (torch tensors, floats) is embedded
shallowly over `ℚ`: states of the ODE model live in an arbitrary `ℚ`-module,
tensors are lists of rationals, and the two reverse-mode differentiation calls
of the Hessian-vector product are oracles whose mathematical values (the
gradient tensors and the Hessian matrix of the scalar loss) are parameters of
the embedded functions.
-/

set_option autoImplicit false

namespace NeuralODE

/-! ### Step integrators (source: euler_step_func, rk4_step_func) -/

/-- Source `euler_step_func(f, x, dt)`: `k1 = f(x); x_out = x + dt * k1`. -/
def euler_step_func {V : Type} [AddCommGroup V] [Module ℚ V]
    (f : V → V) (x : V) (dt : ℚ) : V :=
  let k1 := f x
  x + dt • k1

/-- Instrumented `euler_step_func`: identical computation, additionally
returning the list of arguments at which `f` is evaluated, one entry per
syntactic call of `f` in the source, in source order. -/
def eulerStepTraced {V : Type} [AddCommGroup V] [Module ℚ V]
    (f : V → V) (x : V) (dt : ℚ) : V × List V :=
  let k1 := f x
  (x + dt • k1, [x])

/-- Source `rk4_step_func(f, x, dt)`:
`k1 = f(x); x1 = x + 0.5*dt*k1; k2 = f(x1); x2 = x + 0.5*dt*k2; k3 = f(x2);
x3 = x + dt*k3; k4 = f(x3); x_out = x + dt*(1/6*k1 + 1/3*k2 + 1/3*k3 + 1/6*k4)`. -/
def rk4_step_func {V : Type} [AddCommGroup V] [Module ℚ V]
    (f : V → V) (x : V) (dt : ℚ) : V :=
  let k1 := f x
  let x1 := x + ((1 : ℚ)/2 * dt) • k1
  let k2 := f x1
  let x2 := x + ((1 : ℚ)/2 * dt) • k2
  let k3 := f x2
  let x3 := x + dt • k3
  let k4 := f x3
  x + dt • (((1 : ℚ)/6) • k1 + ((1 : ℚ)/3) • k2 + ((1 : ℚ)/3) • k3 + ((1 : ℚ)/6) • k4)

/-- Instrumented `rk4_step_func`: identical computation, additionally returning
the list of arguments at which `f` is evaluated, one entry per syntactic call
of `f` in the source, in source order. -/
def rk4StepTraced {V : Type} [AddCommGroup V] [Module ℚ V]
    (f : V → V) (x : V) (dt : ℚ) : V × List V :=
  let k1 := f x
  let x1 := x + ((1 : ℚ)/2 * dt) • k1
  let k2 := f x1
  let x2 := x + ((1 : ℚ)/2 * dt) • k2
  let k3 := f x2
  let x3 := x + dt • k3
  let k4 := f x3
  (x + dt • (((1 : ℚ)/6) • k1 + ((1 : ℚ)/3) • k2 + ((1 : ℚ)/3) • k3 + ((1 : ℚ)/6) • k4),
   [x, x1, x2, x3])

/-! ### ShallowODE (source: class ShallowODE) -/

/-- Source `ShallowODE`: holds the shallow network `net`, the step size `dt`
and the integrator name `method` (mutable attributes in the source). -/
structure ShallowODE (V : Type) where
  net : V → V
  dt : ℚ
  method : String

/-- Source `ShallowODE.forward(x)`: dispatches on `self.method`; when the
method string is neither a euler-string nor a rk4-string no branch is taken and
the Python function implicitly returns `None`, embedded as `none`. -/
def ShallowODE.forward {V : Type} [AddCommGroup V] [Module ℚ V]
    (m : ShallowODE V) (x : V) : Option V :=
  if m.method = "euler" then some (euler_step_func m.net x m.dt)
  else if m.method = "rk4" then some (rk4_step_func m.net x m.dt)
  else none

/-! ### Training loop best-checkpoint logic (source: train)

The per-epoch `test_loss_ave` values are numeric outcomes of training; the
embedding takes the finite sequence of those values as input and replays the
source's per-epoch bookkeeping exactly: append the average to
`ode_test_loss_ave_hist`, then compare it with
`min(ode_test_loss_ave_hist, default=float('inf'))` and, on strict `<`,
deep-copy the model as the new best (recorded here by its epoch tag). -/

/-- Python `min(l, default=float('inf'))` over a list of test-loss averages:
the minimum in `WithTop ℚ`, `⊤` playing infinity for the empty list. -/
def minDefaultInf (l : List ℚ) : WithTop ℚ :=
  l.foldr (fun x m => min (↑x : WithTop ℚ) m) ⊤

/-- One run of the epoch loop of source `train`, restricted to the state the
best-checkpoint rule touches: `epoch` counts from 1, `hist` is
`ode_test_loss_ave_hist`, `best` is `ODEnet_best` (tagged by the epoch that
produced it).  Mirrors the source order: the average is appended to the
history *before* the `<`-test against the history's min. -/
def epochLoop : Nat → List ℚ → List ℚ → Option Nat → List ℚ × Option Nat
  | _, [], hist, best => (hist, best)
  | epoch, l :: rest, hist, best =>
      let hist1 := hist ++ [l]
      let best1 := if (↑l : WithTop ℚ) < minDefaultInf hist1 then some epoch else best
      epochLoop (epoch + 1) rest hist1 best1

/-- Source `train`, as a function of the per-epoch `test_loss_ave` sequence:
returns the final `ode_test_loss_ave_hist` and `ODEnet_best` (initially
`None`). -/
def train (testLossAves : List ℚ) : List ℚ × Option Nat :=
  epochLoop 1 testLossAves [] none

/-- Modelled from the spec: the best-checkpoint rule of §4.3 step 4, which the
claim asserts of the code — compare `test_loss_ave` with the minimum over all
*prior* epochs (infinity before any epoch), then record. -/
def epochLoopSpec : Nat → List ℚ → List ℚ → Option Nat → List ℚ × Option Nat
  | _, [], hist, best => (hist, best)
  | epoch, l :: rest, hist, best =>
      let best1 := if (↑l : WithTop ℚ) < minDefaultInf hist then some epoch else best
      epochLoopSpec (epoch + 1) rest (hist ++ [l]) best1

/-! ### Deep-copy checkpoint snapshotting (source: train line
`ODEnet_best = copy.deepcopy(ODEnet)`)

Reference semantics of the snapshot: a heap maps references to parameter
values (flattened `θ`), the live model owns one reference, `copy.deepcopy`
allocates a fresh reference holding a copy of the current value, and an
optimizer step mutates the value behind the live reference only. -/

/-- Heap of model-parameter values: `store` maps references to parameter
vectors, `live` is the live model's reference, `next` the next fresh
reference (every allocated reference is `< next`). -/
structure ParamHeap where
  store : Nat → List ℚ
  live : Nat
  next : Nat

/-- Source `copy.deepcopy(ODEnet)`: allocate a fresh reference and copy the
live model's current parameter value into it; returns the snapshot's
reference and the new heap. -/
def deepcopySnapshot (h : ParamHeap) : Nat × ParamHeap :=
  (h.next,
   { store := Function.update h.store h.next (h.store h.live),
     live := h.live,
     next := h.next + 1 })

/-- Source `optimizer_ODEnet.step()`: mutate the parameters behind the live
model's reference in place by an arbitrary update function `u`. -/
def optimizerStep (u : List ℚ → List ℚ) (h : ParamHeap) : ParamHeap :=
  { h with store := Function.update h.store h.live (u (h.store h.live)) }

/-- A sequence of optimizer updates applied to the live model, in order. -/
def runUpdates (us : List (List ℚ → List ℚ)) (h : ParamHeap) : ParamHeap :=
  us.foldl (fun h u => optimizerStep u h) h

/-! ### HVP oracle (source: get_hessian_eigenvectors / hessian_vector_product)

Tensors are flattened lists of rationals; a parameter list is a list of such
tensors.  The two `torch.autograd.grad` calls are oracles: `gradL` is the
value of the first call (the gradient tensors of the loss over the frozen
subset, one per selected parameter tensor, each of that tensor's numel), and
`H` is the Hessian matrix of the scalar loss in the flattened parameter
order, so that differentiating `sum(flat_grad ⊙ w)`-style scalars again
yields `H·w` split back into parameter shapes. -/

/-- Splits a flat list into tensors of the given lengths (the parameter
shapes); inverse of concatenation when the lengths sum to the list's
length. -/
def unflatten : List Nat → List ℚ → List (List ℚ)
  | [], _ => []
  | n :: ns, xs => xs.take n :: unflatten ns (xs.drop n)

/-- Dot product of two equal-length flat tensors (`torch.sum(a * b)` in the
equal-shape case). -/
def listDot (a b : List ℚ) : ℚ :=
  (List.zipWith (fun x y => x * y) a b).sum

/-- Torch elementwise product of two 1-D tensors, with 1-D broadcasting:
equal lengths multiply pointwise; a length-1 operand is broadcast against the
other; any other length mismatch raises (embedded as `none`). -/
def broadcastMul (a b : List ℚ) : Option (List ℚ) :=
  if a.length = b.length then some (List.zipWith (fun x y => x * y) a b)
  else if b.length = 1 then some (a.map (fun x => x * b.headI))
  else if a.length = 1 then some (b.map (fun y => a.headI * y))
  else none

/-- Coefficient vector of the scalar `torch.sum(flat_grad * v)` as a linear
function of `flat_grad` (length `n`), under torch 1-D broadcasting: this is
what the second `grad` call differentiates through.  `none` exactly when the
broadcast of the product raises. -/
def sumProdCoeff (n : Nat) (v : List ℚ) : Option (List ℚ) :=
  if v.length = n then some v
  else if v.length = 1 then some (List.replicate n v.headI)
  else if n = 1 then some [v.sum]
  else none

/-- Action of the Hessian oracle `H` (a `np × np` matrix given entrywise) on a
flat coefficient vector. -/
def matVec (np : Nat) (H : Nat → Nat → ℚ) (w : List ℚ) : List ℚ :=
  List.ofFn (fun i : Fin np => ∑ j ∈ Finset.range np, H i j * w.getD j 0)

/-- Total number of selected parameters (source
`num_params = sum(p.numel() for p in param_extract_fn(model))`), with the
parameter shapes read off the gradient tensors (autodiff returns one gradient
per parameter tensor, of the same shape). -/
def num_params (gradL : List (List ℚ)) : Nat :=
  (gradL.map List.length).sum

/-- Source `hessian_vector_product(vector)`: zero residual gradients (a no-op
on the oracle values), take the loss gradient `gradL` with the graph retained,
flatten it by concatenation in parameter order, form
`torch.sum(flat_grad * vector)` (1-D broadcasting semantics), differentiate
that scalar again — the Hessian oracle applied to the scalar's coefficient
vector, one tensor per parameter shape — and concatenate the result in the
same parameter order.  `none` embeds the shape-mismatch error raised by the
product. -/
def hessian_vector_product (gradL : List (List ℚ)) (H : Nat → Nat → ℚ)
    (v : List ℚ) : Option (List ℚ) :=
  let flat_grad := gradL.flatten
  (sumProdCoeff flat_grad.length v).map
    (fun w => (unflatten (gradL.map List.length) (matVec flat_grad.length H w)).flatten)

/-- Modelled from the spec (§4.4 steps 2-4): flatten the gradient `g` in the
stable parameter order, form the scalar `s = g · v`, and differentiate `s`
again with respect to the same selected parameters, flattened in the same
stable order — i.e. the Hessian oracle applied directly to `v`. -/
def hvp_spec (gradL : List (List ℚ)) (H : Nat → Nat → ℚ) (v : List ℚ) : List ℚ :=
  matVec gradL.flatten.length H v

/-! ### Subset construction and eigensolver post-processing
(source: get_hessian_eigenvectors) -/

/-- Source subset construction: iterate the loader, stop once `num_batches`
batches are collected (or the loader is exhausted), then `torch.cat` the
image parts and the label parts; `torch.cat` on an empty list of tensors
raises, embedded as `none`. -/
def buildSubset (batches : List (List ℚ × List ℚ)) (num_batches : Nat) :
    Option (List ℚ × List ℚ) :=
  let taken := batches.take num_batches
  if taken.isEmpty then none
  else some ((taken.map Prod.fst).flatten, (taken.map Prod.snd).flatten)

/-- numpy `np.transpose` of a rectangular `num_params × k` matrix given as a
list of rows: the result's row `i` is column `i` of the input. -/
def transposeNP (k : Nat) (m : List (List ℚ)) : List (List ℚ) :=
  List.ofFn (fun i : Fin k => m.map (fun row => row.getD i 0))

/-- Output of the external `scipy.sparse.linalg.eigsh` call: `vals` the k
eigenvalues, `vecs` the `num_params × k` eigenvector matrix whose column `j`
is the eigenvector paired with `vals[j]`. -/
structure EigshOut where
  vals : List ℚ
  vecs : List (List ℚ)

/-- Source `get_hessian_eigenvectors`, final lines: pass the eigenvalues
through unchanged and apply `np.transpose` to the eigenvector matrix, turning
the solver's column layout into one eigenvector per row. -/
def get_hessian_eigenvectors (k : Nat) (out : EigshOut) : List ℚ × List (List ℚ) :=
  (out.vals, transposeNP k out.vecs)

/-! ## Helper lemmas -/

/-- The Python-min with default infinity is a lower bound for every list
element. -/
theorem minDefaultInf_le_of_mem {x : ℚ} {l : List ℚ} (hx : x ∈ l) :
    minDefaultInf l ≤ (↑x : WithTop ℚ) := by
  induction l with
  | nil => cases hx
  | cons a t ih =>
      rcases List.mem_cons.mp hx with h | h
      · subst h
        exact min_le_left _ _
      · exact le_trans (min_le_right _ _) (ih h)

/-- In the source's epoch loop the strict-less test always compares the new
average against a history that already contains it, so the test never fires
and `ODEnet_best` never changes. -/
theorem epochLoop_best_eq (losses : List ℚ) :
    ∀ (epoch : Nat) (hist : List ℚ) (best : Option Nat),
      (epochLoop epoch losses hist best).2 = best := by
  induction losses with
  | nil => intro epoch hist best; rfl
  | cons l rest ih =>
      intro epoch hist best
      have hmem : l ∈ hist ++ [l] := List.mem_append.mpr (Or.inr (List.mem_singleton.mpr rfl))
      have hle : minDefaultInf (hist ++ [l]) ≤ (↑l : WithTop ℚ) := minDefaultInf_le_of_mem hmem
      have hnot : ¬ ((↑l : WithTop ℚ) < minDefaultInf (hist ++ [l])) := not_lt.mpr hle
      show (epochLoop (epoch + 1) rest (hist ++ [l])
        (if (↑l : WithTop ℚ) < minDefaultInf (hist ++ [l]) then some epoch else best)).2 = best
      rw [if_neg hnot]
      exact ih (epoch + 1) (hist ++ [l]) best

/-- The spec's rule (compare against prior epochs only) keeps an
already-recorded best recorded. -/
theorem epochLoopSpec_isSome (losses : List ℚ) :
    ∀ (epoch : Nat) (hist : List ℚ) (b : Nat),
      ((epochLoopSpec epoch losses hist (some b)).2).isSome := by
  induction losses with
  | nil => intro epoch hist b; rfl
  | cons l rest ih =>
      intro epoch hist b
      show ((epochLoopSpec (epoch + 1) rest (hist ++ [l])
        (if (↑l : WithTop ℚ) < minDefaultInf hist then some epoch else some b)).2).isSome
      by_cases hc : (↑l : WithTop ℚ) < minDefaultInf hist
      · rw [if_pos hc]; exact ih _ _ _
      · rw [if_neg hc]; exact ih _ _ _

/-- Under the spec's rule of §4.3 step 4 a first epoch always records a best
checkpoint (its loss is below the empty history's +infinity), and it stays
recorded. -/
theorem epochLoopSpec_sets_best (l : ℚ) (rest : List ℚ) :
    ((epochLoopSpec 1 (l :: rest) [] none).2).isSome := by
  have hc : (↑l : WithTop ℚ) < minDefaultInf [] := by
    simp [minDefaultInf]
  show ((epochLoopSpec 2 rest ([] ++ [l])
    (if (↑l : WithTop ℚ) < minDefaultInf [] then some 1 else none)).2).isSome
  rw [if_pos hc]
  exact epochLoopSpec_isSome rest 2 ([] ++ [l]) 1

/-- Concatenating the tensors split off by `unflatten` recovers the flat list
when the shapes sum to its length. -/
theorem flatten_unflatten : ∀ (shapes : List Nat) (xs : List ℚ),
    shapes.sum = xs.length → (unflatten shapes xs).flatten = xs := by
  intro shapes
  induction shapes with
  | nil =>
      intro xs h
      have : xs = [] := List.length_eq_zero.mp h.symm
      subst this
      rfl
  | cons n ns ih =>
      intro xs h
      have hsum : n + ns.sum = xs.length := by simpa [List.sum_cons] using h
      have hn : n ≤ xs.length := le_trans (Nat.le_add_right _ _) (le_of_eq hsum)
      have hdrop : ns.sum = (xs.drop n).length := by
        rw [List.length_drop]
        omega
      show xs.take n ++ (unflatten ns (xs.drop n)).flatten = xs
      rw [ih (xs.drop n) hdrop, List.take_append_drop]

/-- The Hessian oracle's action has one entry per selected parameter. -/
theorem length_matVec (np : Nat) (H : Nat → Nat → ℚ) (w : List ℚ) :
    (matVec np H w).length = np :=
  List.length_ofFn _

/-- The flat gradient has one entry per selected parameter. -/
theorem length_flat_grad (gradL : List (List ℚ)) :
    gradL.flatten.length = num_params gradL := by
  simp [num_params, List.length_flatten]

/-- On a vector of matching length the source's `hessian_vector_product`
returns the Hessian oracle applied to it. -/
theorem hvp_apply_eq (gradL : List (List ℚ)) (H : Nat → Nat → ℚ) (v : List ℚ)
    (hv : v.length = num_params gradL) :
    hessian_vector_product gradL H v = some (matVec (num_params gradL) H v) := by
  have hlen := length_flat_grad gradL
  simp only [hessian_vector_product]
  rw [sumProdCoeff, if_pos (hv.trans hlen.symm), Option.map_some']
  rw [flatten_unflatten (gradL.map List.length) _ (by rw [length_matVec]; exact hlen.symm ▸ rfl)]
  rw [hlen]

/-- A dot product against an `ofFn` list of the same length is the indexed
sum of products. -/
theorem listDot_ofFn : ∀ (a : List ℚ) (n : Nat) (g : Fin n → ℚ),
    a.length = n → listDot a (List.ofFn g) = ∑ i : Fin n, a.getD i 0 * g i := by
  intro a
  induction a with
  | nil =>
      intro n g h
      cases h
      simp [listDot]
  | cons x xs ih =>
      intro n g h
      cases n with
      | zero => cases h
      | succ m =>
          have hx : xs.length = m := Nat.succ_injective h
          rw [List.ofFn_succ]
          show (x * g 0 + (List.zipWith (fun x y => x * y) xs
            (List.ofFn fun i : Fin m => g i.succ)).sum) = _
          rw [Fin.sum_univ_succ]
          have h0 : (x :: xs).getD (0 : Fin (m + 1)) 0 * g 0 = x * g 0 := by
            simp
          rw [h0]
          congr 1
          rw [show (List.zipWith (fun x y => x * y) xs
              (List.ofFn fun i : Fin m => g i.succ)).sum =
              listDot xs (List.ofFn fun i : Fin m => g i.succ) from rfl]
          rw [ih m (fun i => g i.succ) hx]
          refine Finset.sum_congr rfl fun i _ => ?_
          simp [Fin.val_succ]

/-- Dot product against the Hessian oracle's action, as a double sum. -/
theorem listDot_matVec (a w : List ℚ) (np : Nat) (H : Nat → Nat → ℚ)
    (ha : a.length = np) :
    listDot a (matVec np H w) =
      ∑ i ∈ Finset.range np, ∑ j ∈ Finset.range np,
        a.getD i 0 * (H i j * w.getD j 0) := by
  rw [matVec, listDot_ofFn a np _ ha]
  rw [Fin.sum_univ_eq_sum_range
    (fun i => a.getD i 0 * ∑ j ∈ Finset.range np, H i j * w.getD j 0) np]
  exact Finset.sum_congr rfl fun i _ => Finset.mul_sum _ _ _

/-- Multiplying elementwise against a constant replicate is mapping the
multiplication. -/
theorem listDot_replicate : ∀ (g : List ℚ) (c : ℚ),
    listDot g (List.replicate g.length c) = (g.map (fun x => x * c)).sum := by
  intro g c
  induction g with
  | nil => rfl
  | cons x xs ih =>
      show x * c + listDot xs (List.replicate xs.length c) = _
      rw [ih]
      rfl

/-- Summing a list scaled on the left is scaling its sum. -/
theorem sum_map_mul_left_const (a : ℚ) : ∀ (v : List ℚ),
    (v.map (fun y => a * y)).sum = a * v.sum := by
  intro v
  induction v with
  | nil => simp
  | cons y ys ihy =>
      simp only [List.map_cons, List.sum_cons, ihy]
      ring

/-- Soundness of the coefficient-vector reading of the scalar
`torch.sum(flat_grad * v)`: whenever `sumProdCoeff` returns coefficients `w`,
the broadcast product really sums to `flat_grad · w`, and `sumProdCoeff`
fails exactly when the broadcast raises. -/
theorem sumProdCoeff_sound (g v w : List ℚ)
    (h : sumProdCoeff g.length v = some w) :
    (broadcastMul g v).map List.sum = some (listDot g w) := by
  rw [sumProdCoeff] at h
  split_ifs at h with h1 h2 h3
  · obtain rfl := Option.some.inj h
    rw [broadcastMul, if_pos h1.symm]
    rfl
  · obtain rfl := Option.some.inj h
    rw [broadcastMul, if_neg (fun hc => h1 hc.symm), if_pos h2]
    rw [Option.map_some']
    rw [listDot_replicate]
  · obtain rfl := Option.some.inj h
    obtain ⟨a, rfl⟩ := List.length_eq_one.mp h3
    rw [broadcastMul, if_neg (fun hc => h1 hc.symm), if_neg h2, if_pos h3]
    rw [Option.map_some']
    congr 1
    show (v.map (fun y => a * y)).sum = (List.zipWith (fun x y => x * y) [a] [v.sum]).sum
    have hz : (List.zipWith (fun x y => x * y) [a] [v.sum]).sum = a * v.sum := by
      simp
    rw [hz, sum_map_mul_left_const]

/-! ## Claim theorems -/

/-- C1 (code bug): in the source's `train`, `test_loss_ave` is appended to
`ode_test_loss_ave_hist` *before* the comparison
`test_loss_ave < min(ode_test_loss_ave_hist, default=inf)`, so the minimum
already includes the current epoch, the strict comparison is always false and
`ODEnet_best` remains `None` for every run — contradicting the claimed rule
(compare against prior epochs, so that the first completed epoch always sets
a non-`None` best checkpoint). -/
theorem best_checkpoint_never_set :
    ∀ testLossAves : List ℚ, (train testLossAves).2 = none :=
  fun ls => epochLoop_best_eq ls 1 [] none

/-- C3: one Euler step returns `x + dt • f x`, evaluating `f` exactly once
(at `x`); concretely, for `f(x) = -x`, `dt = 1/10`, one step from `x = 1`
gives `9/10`. -/
theorem euler_step_correct :
    (∀ (V : Type) [AddCommGroup V] [Module ℚ V] (f : V → V) (x : V) (dt : ℚ),
        euler_step_func f x dt = x + dt • f x ∧
          (eulerStepTraced f x dt).2 = [x]) ∧
      euler_step_func (fun y : ℚ => -y) 1 (1/10) = 9/10 := by
  refine ⟨fun V _ _ f x dt => ⟨rfl, rfl⟩, ?_⟩
  show (1 : ℚ) + (1/10 : ℚ) • -(1 : ℚ) = 9/10
  rw [smul_eq_mul]
  norm_num

/-- C10: `ShallowODE.forward` with a `method` string other than the euler or
rk4 one takes neither branch and returns Python `None` (embedded `none`); the
one-step prediction contract therefore only holds under the precondition that
`method` is one of the two. -/
theorem forward_none_on_unknown_method :
    ∀ (V : Type) [AddCommGroup V] [Module ℚ V] (m : ShallowODE V) (x : V),
      m.method ≠ "euler" → m.method ≠ "rk4" → m.forward x = none := by
  intro V _ _ m x h1 h2
  simp [ShallowODE.forward, h1, h2]

/-- C4: one RK4 step evaluates `f` exactly four times, at
`x`, `x + dt/2•k1`, `x + dt/2•k2` and `x + dt•k3` (the four trace entries,
with `k1 = f x`, `k2`, `k3` the previous evaluations), and returns
`x + dt•(k1/6 + k2/3 + k3/3 + k4/6)`. -/
theorem rk4_step_correct :
    ∀ (V : Type) [AddCommGroup V] [Module ℚ V] (f : V → V) (x : V) (dt : ℚ),
      rk4_step_func f x dt =
        x + dt • (((1 : ℚ)/6) • f x
          + ((1 : ℚ)/3) • f (x + (dt/2) • f x)
          + ((1 : ℚ)/3) • f (x + (dt/2) • f (x + (dt/2) • f x))
          + ((1 : ℚ)/6) • f (x + dt • f (x + (dt/2) • f (x + (dt/2) • f x)))) ∧
      (rk4StepTraced f x dt).2 =
        [x, x + (dt/2) • f x, x + (dt/2) • f (x + (dt/2) • f x),
          x + dt • f (x + (dt/2) • f (x + (dt/2) • f x))] := by
  intro V _ _ f x dt
  have h2 : (1 : ℚ)/2 * dt = dt/2 := by ring
  constructor
  · show x + dt • (((1 : ℚ)/6) • f x
        + ((1 : ℚ)/3) • f (x + ((1 : ℚ)/2 * dt) • f x)
        + ((1 : ℚ)/3) • f (x + ((1 : ℚ)/2 * dt) • f (x + ((1 : ℚ)/2 * dt) • f x))
        + ((1 : ℚ)/6) • f (x + dt • f (x + ((1 : ℚ)/2 * dt) • f (x + ((1 : ℚ)/2 * dt) • f x)))) = _
    rw [h2]
  · show ([x, x + ((1 : ℚ)/2 * dt) • f x,
        x + ((1 : ℚ)/2 * dt) • f (x + ((1 : ℚ)/2 * dt) • f x),
        x + dt • f (x + ((1 : ℚ)/2 * dt) • f (x + ((1 : ℚ)/2 * dt) • f x))] : List V) = _
    rw [h2]

/-- C8: a deep-copied checkpoint lives behind a fresh reference, so any
sequence of optimizer updates applied to the live model afterwards leaves the
snapshot's stored parameter values exactly as they were at copy time. -/
theorem snapshot_immune_to_updates (h : ParamHeap) (us : List (List ℚ → List ℚ))
    (hwf : h.live < h.next) :
    (runUpdates us (deepcopySnapshot h).2).store (deepcopySnapshot h).1 =
      h.store h.live := by
  have hlive : ∀ (vs : List (List ℚ → List ℚ)) (g : ParamHeap),
      (runUpdates vs g).live = g.live := by
    intro vs
    induction vs with
    | nil => intro g; rfl
    | cons u t ih => intro g; exact ih (optimizerStep u g)
  have hstore : ∀ (vs : List (List ℚ → List ℚ)) (g : ParamHeap) (a : Nat),
      a ≠ g.live → (runUpdates vs g).store a = g.store a := by
    intro vs
    induction vs with
    | nil => intro g a _; rfl
    | cons u t ih =>
        intro g a ha
        have : (runUpdates t (optimizerStep u g)).store a = (optimizerStep u g).store a :=
          ih (optimizerStep u g) a ha
        rw [runUpdates, List.foldl_cons, ← runUpdates, this]
        exact Function.update_noteq ha _ _
  have hne : h.next ≠ (deepcopySnapshot h).2.live := Nat.ne_of_gt hwf
  rw [hstore us (deepcopySnapshot h).2 (deepcopySnapshot h).1 hne]
  exact Function.update_same _ _ _

/-- Witness for C8: a one-parameter heap, one snapshot, one destructive
update of the live model; the snapshot still holds the original value. -/
theorem snapshot_immune_to_updates_witness :
    (ParamHeap.live ⟨fun _ => [0], 0, 1⟩ < ParamHeap.next ⟨fun _ => [0], 0, 1⟩) ∧
      (runUpdates [fun l => 1 :: l]
          (deepcopySnapshot ⟨fun _ => [0], 0, 1⟩).2).store
          (deepcopySnapshot ⟨fun _ => [0], 0, 1⟩).1 =
        ParamHeap.store ⟨fun _ => [0], 0, 1⟩ (ParamHeap.live ⟨fun _ => [0], 0, 1⟩) :=
  ⟨by decide,
    snapshot_immune_to_updates ⟨fun _ => [0], 0, 1⟩ [fun l => 1 :: l] (by decide)⟩

/-- C9 counterexample: with a source yielding zero batches (fewer than the
requested one batch) the construction does not complete silently — the final
concatenation of an empty tensor list raises, embedded as `none`. -/
theorem subset_empty_source_errors :
    ([] : List (List ℚ × List ℚ)).length < 1 ∧
      buildSubset ([] : List (List ℚ × List ℚ)) 1 = none := by
  exact ⟨by decide, rfl⟩

/-- C9 as amended: provided at least one batch ends up collected (nonempty
source and a positive request), a source with fewer batches than requested is
used in full without error, and a source with at least the requested number
contributes exactly its first `num_batches` batches. -/
theorem subset_construction_batches (batches : List (List ℚ × List ℚ))
    (num_batches : Nat) (hne : batches ≠ []) (hpos : 0 < num_batches) :
    (batches.length < num_batches →
        buildSubset batches num_batches =
          some ((batches.map Prod.fst).flatten, (batches.map Prod.snd).flatten)) ∧
      (num_batches ≤ batches.length →
        buildSubset batches num_batches =
          some (((batches.take num_batches).map Prod.fst).flatten,
            ((batches.take num_batches).map Prod.snd).flatten)) := by
  have htaken : batches.take num_batches ≠ [] := by
    cases batches with
    | nil => exact absurd rfl hne
    | cons b t =>
        cases num_batches with
        | zero => exact absurd hpos (by decide)
        | succ m => simp [List.take]
  have hempty : (batches.take num_batches).isEmpty = false :=
    List.isEmpty_eq_false.mpr htaken
  constructor
  · intro hlt
    have hall : batches.take num_batches = batches :=
      List.take_of_length_le (Nat.le_of_lt hlt)
    rw [buildSubset]
    rw [hall] at hempty ⊢
    rw [if_neg (by simp [hempty])]
  · intro _
    rw [buildSubset]
    rw [if_neg (by simp [hempty])]

/-- Witness for C9's amended theorem: one available batch, two requested —
the subset is the single available batch and no error is raised. -/
theorem subset_construction_batches_witness :
    ([([1], [2])] : List (List ℚ × List ℚ)) ≠ [] ∧ 0 < 2 ∧
      ((([([1], [2])] : List (List ℚ × List ℚ)).length < 2 →
          buildSubset ([([1], [2])] : List (List ℚ × List ℚ)) 2 =
            some ((([([1], [2])] : List (List ℚ × List ℚ)).map Prod.fst).flatten,
              (([([1], [2])] : List (List ℚ × List ℚ)).map Prod.snd).flatten)) ∧
        (2 ≤ ([([1], [2])] : List (List ℚ × List ℚ)).length →
          buildSubset ([([1], [2])] : List (List ℚ × List ℚ)) 2 =
            some (((([([1], [2])] : List (List ℚ × List ℚ)).take 2).map Prod.fst).flatten,
              ((([([1], [2])] : List (List ℚ × List ℚ)).take 2).map Prod.snd).flatten))) :=
  ⟨by decide, by decide,
    subset_construction_batches [([1], [2])] 2 (by decide) (by decide)⟩

/-- C2 counterexample: a vector of length 1 disagrees with `num_params = 2`
yet `hessian_vector_product` succeeds, silently broadcasting it — the claimed
unconditional ShapeMismatch failure is false. -/
theorem hvp_broadcast_counterexample :
    (([3] : List ℚ).length ≠ num_params [[0, 0]]) ∧
      hessian_vector_product [[0, 0]] (fun _ _ => 0) [3] = some [0, 0] := by
  refine ⟨by decide, ?_⟩
  simp [hessian_vector_product, sumProdCoeff, matVec, unflatten,
    List.ofFn_succ, Finset.sum_range_succ]

/-- C2 as amended: the product `flat_grad * v` follows torch 1-D
broadcasting, so `apply` fails (ShapeMismatch, embedded `none`) exactly when
`v`'s length differs from `num_params` and neither of the two lengths is 1;
a length-1 `v` (or a single selected parameter) is silently broadcast
instead of rejected. -/
theorem hvp_shape_mismatch_iff :
    ∀ (gradL : List (List ℚ)) (H : Nat → Nat → ℚ) (v : List ℚ),
      hessian_vector_product gradL H v = none ↔
        (v.length ≠ num_params gradL ∧ v.length ≠ 1 ∧ num_params gradL ≠ 1) := by
  intro gradL H v
  have hlen := length_flat_grad gradL
  simp only [hessian_vector_product]
  rw [Option.map_eq_none', sumProdCoeff, hlen]
  split_ifs with ha hb hc
  · simp [ha]
  · simp [hb]
  · simp [hc]
  · simp [ha, hb, hc]

/-- C5: on a vector of matching length the source's double-backprop
`hessian_vector_product` coincides with the spec's recipe (flatten `g` in the
stable parameter order, take `s = g · v`, differentiate `s` again and flatten
in the same order), and the result again has `num_params` entries. -/
theorem hvp_matches_spec (gradL : List (List ℚ)) (H : Nat → Nat → ℚ)
    (v : List ℚ) (hv : v.length = num_params gradL) :
    hessian_vector_product gradL H v = some (hvp_spec gradL H v) ∧
      (hvp_spec gradL H v).length = num_params gradL := by
  have hlen := length_flat_grad gradL
  constructor
  · rw [hvp_apply_eq gradL H v hv, hvp_spec, hlen]
  · rw [hvp_spec, length_matVec, hlen]

/-- Witness for C5 at a concrete gradient list, Hessian oracle and vector. -/
theorem hvp_matches_spec_witness :
    (([5, 7] : List ℚ).length = num_params [[0, 0]]) ∧
      (hessian_vector_product [[0, 0]] (fun i j => (1 : ℚ) + i + j) [5, 7] =
          some (hvp_spec [[0, 0]] (fun i j => (1 : ℚ) + i + j) [5, 7]) ∧
        (hvp_spec [[0, 0]] (fun i j => (1 : ℚ) + i + j) [5, 7]).length =
          num_params [[0, 0]]) :=
  ⟨by decide, hvp_matches_spec [[0, 0]] (fun i j => (1 : ℚ) + i + j) [5, 7] (by decide)⟩

/-- C6: for a fixed gradient list and a symmetric Hessian oracle (the Hessian
of a scalar loss is symmetric), the operator computed by
`hessian_vector_product` is symmetric: `v1 · apply(v2) = v2 · apply(v1)`
whenever both vectors have length `num_params` — exactly, hence within any
floating-point tolerance. -/
theorem hvp_symmetric (gradL : List (List ℚ)) (H : Nat → Nat → ℚ)
    (v1 v2 : List ℚ) (h1 : v1.length = num_params gradL)
    (h2 : v2.length = num_params gradL) (hsym : ∀ i j, H i j = H j i)
    (w1 w2 : List ℚ) (hw1 : hessian_vector_product gradL H v1 = some w1)
    (hw2 : hessian_vector_product gradL H v2 = some w2) :
    listDot v1 w2 = listDot v2 w1 := by
  rw [hvp_apply_eq gradL H v1 h1] at hw1
  rw [hvp_apply_eq gradL H v2 h2] at hw2
  obtain rfl := Option.some.inj hw1
  obtain rfl := Option.some.inj hw2
  calc
    listDot v1 (matVec (num_params gradL) H v2) =
        ∑ i ∈ Finset.range (num_params gradL), ∑ j ∈ Finset.range (num_params gradL),
          v1.getD i 0 * (H i j * v2.getD j 0) := listDot_matVec v1 v2 _ H h1
    _ = ∑ j ∈ Finset.range (num_params gradL), ∑ i ∈ Finset.range (num_params gradL),
          v1.getD i 0 * (H i j * v2.getD j 0) := Finset.sum_comm
    _ = ∑ j ∈ Finset.range (num_params gradL), ∑ i ∈ Finset.range (num_params gradL),
          v2.getD j 0 * (H j i * v1.getD i 0) := by
        refine Finset.sum_congr rfl fun j _ => Finset.sum_congr rfl fun i _ => ?_
        rw [hsym i j]
        ring
    _ = listDot v2 (matVec (num_params gradL) H v1) :=
        (listDot_matVec v2 v1 _ H h2).symm

/-- Witness for C6 with a constant (hence symmetric) Hessian oracle and two
basis vectors. -/
theorem hvp_symmetric_witness :
    (([1, 0] : List ℚ).length = num_params [[0, 0]]) ∧
      (([0, 1] : List ℚ).length = num_params [[0, 0]]) ∧
      (∀ i j : Nat, (fun _ _ : Nat => (1 : ℚ)) i j = (fun _ _ : Nat => (1 : ℚ)) j i) ∧
      hessian_vector_product [[0, 0]] (fun _ _ => 1) [1, 0] = some [1, 1] ∧
      hessian_vector_product [[0, 0]] (fun _ _ => 1) [0, 1] = some [1, 1] ∧
      listDot [1, 0] [1, 1] = listDot [0, 1] [1, 1] := by
  have e1 : hessian_vector_product [[0, 0]] (fun _ _ => 1) [1, 0] = some [1, 1] := by
    simp [hessian_vector_product, sumProdCoeff, matVec, unflatten,
      List.ofFn_succ, Finset.sum_range_succ]
  have e2 : hessian_vector_product [[0, 0]] (fun _ _ => 1) [0, 1] = some [1, 1] := by
    simp [hessian_vector_product, sumProdCoeff, matVec, unflatten,
      List.ofFn_succ, Finset.sum_range_succ]
  exact ⟨by decide, by decide, fun _ _ => rfl, e1, e2,
    hvp_symmetric [[0, 0]] (fun _ _ => 1) [1, 0] [0, 1] (by decide) (by decide)
      (fun _ _ => rfl) [1, 1] [1, 1] e1 e2⟩

/-- C7: `get_hessian_eigenvectors` passes the solver's eigenvalues through
(so they are sorted ascending and `k` of them, given the eigsh contract) and
transposes the solver's `num_params × k` column layout so that row `i` of the
returned array is the solver's column `i`, the eigenvector paired with the
`i`-th sorted eigenvalue. -/
theorem eigen_layout (k : Nat) (out : EigshOut) (hk : out.vals.length = k)
    (hs : out.vals.Sorted (· ≤ ·)) :
    (get_hessian_eigenvectors k out).1.Sorted (· ≤ ·) ∧
      (get_hessian_eigenvectors k out).1.length = k ∧
      (get_hessian_eigenvectors k out).2.length = k ∧
      ∀ i, i < k → (get_hessian_eigenvectors k out).2.getD i [] =
        out.vecs.map (fun row => row.getD i 0) := by
  refine ⟨hs, hk, by simp [get_hessian_eigenvectors, transposeNP], ?_⟩
  intro i hi
  have hi' : i < (transposeNP k out.vecs).length := by
    simpa [transposeNP] using hi
  show (transposeNP k out.vecs).getD i [] = _
  rw [List.getD_eq_getElem _ _ hi']
  simp [transposeNP]

/-- Witness for C7: two sorted eigenvalues, a 3 × 2 eigenvector matrix; the
output rows are the input columns. -/
theorem eigen_layout_witness :
    (EigshOut.vals ⟨[1, 2], [[1, 0], [0, 1], [3, 4]]⟩).length = 2 ∧
      (EigshOut.vals ⟨[1, 2], [[1, 0], [0, 1], [3, 4]]⟩).Sorted (· ≤ ·) ∧
      ((get_hessian_eigenvectors 2 ⟨[1, 2], [[1, 0], [0, 1], [3, 4]]⟩).1.Sorted (· ≤ ·) ∧
        (get_hessian_eigenvectors 2 ⟨[1, 2], [[1, 0], [0, 1], [3, 4]]⟩).1.length = 2 ∧
        (get_hessian_eigenvectors 2 ⟨[1, 2], [[1, 0], [0, 1], [3, 4]]⟩).2.length = 2 ∧
        ∀ i, i < 2 → (get_hessian_eigenvectors 2 ⟨[1, 2], [[1, 0], [0, 1], [3, 4]]⟩).2.getD i [] =
          (EigshOut.vecs ⟨[1, 2], [[1, 0], [0, 1], [3, 4]]⟩).map (fun row => row.getD i 0)) :=
  ⟨by decide, by decide,
    eigen_layout 2 ⟨[1, 2], [[1, 0], [0, 1], [3, 4]]⟩ (by decide) (by decide)⟩

/-- Witness for C10 at a concrete model whose method string is a
midpoint-method name. -/
theorem forward_none_on_unknown_method_witness :
    ("midpoint" ≠ "euler") ∧ ("midpoint" ≠ "rk4") ∧
      (ShallowODE.forward (V := ℚ) ⟨id, 1, "midpoint"⟩ 0 = none) :=
  ⟨by decide, by decide,
    forward_none_on_unknown_method ℚ ⟨id, 1, "midpoint"⟩ 0 (by decide) (by decide)⟩

end NeuralODE
